import Mathlib

/-!
Verification of the Datahive-Bot farm orchestration core against its
natural-language specification.  The Python source is shallowly embedded:
pure fragments become Lean functions, stateful fragments become explicit
state passing, fallible fragments return `Option`/`Except`.
-/

namespace Datahive

/-! ## ProxyManager (src/app/utils/proxy.py)

The pool is a FIFO deque of proxy strings.  `get_proxy` pops the front
(returning `none` on an empty pool), `release_proxy` appends to the back
unless the argument is falsy (Python: `if not proxy: return`). -/

/-- Pool state: the deque of proxies, front first. -/
abbrev ProxyPool := List String

/-- `ProxyManager.get_proxy`: pop the front entry; `none` when empty. -/
def get_proxy (pool : ProxyPool) : Option String × ProxyPool :=
  match pool with
  | [] => (none, [])
  | p :: rest => (some p, rest)

/-- Python truthiness of an `Optional[str]`: falsy iff `None` or `""`. -/
def pyTruthyStrOpt (s : Option String) : Bool :=
  match s with
  | none => false
  | some s => !(s = "")

/-- `ProxyManager.release_proxy`: append to the back unless falsy. -/
def release_proxy (proxy : Option String) (pool : ProxyPool) : ProxyPool :=
  if pyTruthyStrOpt proxy then
    match proxy with
    | some p => pool ++ [p]
    | none => pool
  else pool

/-- `ProxyManager.load_proxies`: strip entries, drop the empty ones. -/
def load_proxies (proxy_urls : List String) : ProxyPool :=
  (proxy_urls.map (·.trim)).filter (fun s => !(s = ""))

/-! ## MultiprocessFarmingManager.distribute_proxies
(src/app/core/farm/manager.py, lines 19–34)

The Python returns a dict keyed by worker index `0..P-1`; we represent it
as the list of partitions in index order. -/

/-- Per-worker slice sizes: `len//P + (1 if i < len%P else 0)` for each
worker index `i` in `range(P)`. -/
def partitionCounts (M P : Nat) : List Nat :=
  (List.range P).map (fun i => M / P + (if i < M % P then 1 else 0))

/-- The slicing loop: successive `proxies[start:end]` slices of the given
sizes. -/
def sliceByCounts (l : List String) : List Nat → List (List String)
  | [] => []
  | c :: cs => l.take c :: sliceByCounts (l.drop c) cs

/-- `MultiprocessFarmingManager.distribute_proxies`: empty input yields
`P` empty partitions; otherwise contiguous slices of the computed sizes. -/
def distribute_proxies (proxies : List String) (process_count : Nat) :
    List (List String) :=
  if proxies = [] then List.replicate process_count []
  else sliceByCounts proxies (partitionCounts proxies.length process_count)

/-- Sum of the per-worker counts: `k*q + min k r`. -/
theorem sum_counts (k q r : Nat) :
    ((List.range k).map (fun i => q + (if i < r then 1 else 0))).sum
      = k * q + min k r := by
  induction k with
  | zero => simp
  | succ n ih =>
      rw [List.range_succ, List.map_append, List.sum_append]
      simp only [List.map_cons, List.map_nil, List.sum_cons, List.sum_nil, ih]
      have hmul : (n + 1) * q = n * q + q := by ring
      rw [hmul]
      by_cases h : n < r
      · simp only [if_pos h]
        omega
      · simp only [if_neg h]
        omega

theorem partitionCounts_sum (M P : Nat) (hP : 1 ≤ P) :
    (partitionCounts M P).sum = M := by
  unfold partitionCounts
  rw [sum_counts]
  have hlt : M % P < P := Nat.mod_lt _ (by omega)
  have : min P (M % P) = M % P := by omega
  rw [this]
  have := Nat.div_add_mod M P
  omega

theorem sliceByCounts_flatten (counts : List Nat) :
    ∀ l : List String, l.length ≤ counts.sum →
      (sliceByCounts l counts).flatten = l := by
  induction counts with
  | nil =>
      intro l h
      simp only [List.sum_nil, Nat.le_zero, List.length_eq_zero] at h
      simp [sliceByCounts, h]
  | cons c cs ih =>
      intro l h
      simp only [List.sum_cons] at h
      simp only [sliceByCounts, List.flatten_cons]
      rw [ih (l.drop c) (by simp only [List.length_drop]; omega)]
      exact List.take_append_drop c l

theorem sliceByCounts_lengths (counts : List Nat) :
    ∀ l : List String, counts.sum ≤ l.length →
      (sliceByCounts l counts).map List.length = counts := by
  induction counts with
  | nil => intro l _; simp [sliceByCounts]
  | cons c cs ih =>
      intro l h
      simp only [List.sum_cons] at h
      simp only [sliceByCounts, List.map_cons]
      rw [ih (l.drop c) (by simp only [List.length_drop]; omega)]
      simp only [List.length_take]
      have : min c l.length = c := by omega
      rw [this]

theorem partitionCounts_mem (M P c : Nat) (hc : c ∈ partitionCounts M P) :
    c = M / P ∨ c = M / P + 1 := by
  unfold partitionCounts at hc
  rw [List.mem_map] at hc
  obtain ⟨i, _, rfl⟩ := hc
  by_cases h : i < M % P <;> simp [h]

theorem partitionCounts_get (M P i : Nat) (hi : i < P) :
    (partitionCounts M P)[i]? = some (M / P + (if i < M % P then 1 else 0)) := by
  unfold partitionCounts
  rw [List.getElem?_map]
  simp [List.getElem?_range hi]

theorem partitionCounts_zero (P : Nat) :
    partitionCounts 0 P = List.replicate P 0 := by
  unfold partitionCounts
  have hcong : ∀ i ∈ List.range P,
      0 / P + (if i < 0 % P then 1 else 0) = (fun _ : Nat => 0) i := by
    intro i _
    simp
  rw [List.map_congr_left hcong, List.map_const', List.length_range]

theorem distribute_lengths (proxies : List String) (P : Nat) (hP : 1 ≤ P) :
    (distribute_proxies proxies P).map List.length
      = partitionCounts proxies.length P := by
  unfold distribute_proxies
  by_cases h : proxies = []
  · subst h
    rw [if_pos rfl, List.map_replicate]
    simp [partitionCounts_zero]
  · rw [if_neg h]
    exact sliceByCounts_lengths _ proxies (by rw [partitionCounts_sum _ _ hP])

/-- C2: for every proxy list and every worker count `P ≥ 1`, the computed
distribution has exactly `P` partitions, their concatenation in index
order is the original list (so every proxy lands in exactly one partition,
in contiguous slices), partition `i` has size `M/P` plus one extra exactly
when `i < M mod P`, and any two partition sizes differ by at most 1. -/
theorem distribute_proxies_balanced (proxies : List String) (P : Nat)
    (hP : 1 ≤ P) :
    (distribute_proxies proxies P).length = P
    ∧ (distribute_proxies proxies P).flatten = proxies
    ∧ (∀ i, i < P →
        ((distribute_proxies proxies P).map List.length)[i]?
          = some (proxies.length / P
              + (if i < proxies.length % P then 1 else 0)))
    ∧ (∀ a ∈ distribute_proxies proxies P, ∀ b ∈ distribute_proxies proxies P,
        a.length ≤ b.length + 1) := by
  have hlen : (distribute_proxies proxies P).map List.length
      = partitionCounts proxies.length P := distribute_lengths proxies P hP
  refine ⟨?_, ?_, ?_, ?_⟩
  · have := congrArg List.length hlen
    simp only [List.length_map] at this
    rw [this]
    unfold partitionCounts
    simp
  · unfold distribute_proxies
    by_cases h : proxies = []
    · subst h; simp
    · rw [if_neg h]
      exact sliceByCounts_flatten _ proxies
        (by rw [partitionCounts_sum _ _ hP])
  · intro i hi
    rw [hlen]
    exact partitionCounts_get _ _ _ hi
  · intro a ha b hb
    have hma : a.length ∈ partitionCounts proxies.length P := by
      rw [← hlen]; exact List.mem_map_of_mem _ ha
    have hmb : b.length ∈ partitionCounts proxies.length P := by
      rw [← hlen]; exact List.mem_map_of_mem _ hb
    rcases partitionCounts_mem _ _ _ hma with h1 | h1 <;>
      rcases partitionCounts_mem _ _ _ hmb with h2 | h2 <;> omega

/-- Witness for C2 at `M = 5`, `P = 3`. -/
theorem distribute_proxies_balanced_witness :
    (1 ≤ 3)
    ∧ ((distribute_proxies ["a", "b", "c", "d", "e"] 3).length = 3
      ∧ (distribute_proxies ["a", "b", "c", "d", "e"] 3).flatten
          = ["a", "b", "c", "d", "e"]
      ∧ (∀ i, i < 3 →
          ((distribute_proxies ["a", "b", "c", "d", "e"] 3).map
              List.length)[i]?
            = some ((5 : Nat) / 3 + (if i < 5 % 3 then 1 else 0)))
      ∧ (∀ a ∈ distribute_proxies ["a", "b", "c", "d", "e"] 3,
          ∀ b ∈ distribute_proxies ["a", "b", "c", "d", "e"] 3,
          a.length ≤ b.length + 1)) :=
  ⟨by decide, by
    have h := distribute_proxies_balanced ["a", "b", "c", "d", "e"] 3
      (by decide)
    simpa using h⟩

/-- C10: acquiring from a non-empty pool returns the front proxy leaving
the tail, and immediately releasing it appends it to the back: the queue
rotates by one position and its multiset of proxies is preserved. -/
theorem proxy_acquire_release_rotation (p : String) (rest : ProxyPool)
    (hp : p ≠ "") :
    get_proxy (p :: rest) = (some p, rest)
    ∧ release_proxy (some p) rest = rest ++ [p]
    ∧ (release_proxy (some p) rest).Perm (p :: rest) := by
  refine ⟨rfl, ?_, ?_⟩
  · simp [release_proxy, pyTruthyStrOpt, hp]
  · simp [release_proxy, pyTruthyStrOpt, hp, List.perm_append_singleton]

/-- Witness for C10 on the pool `["http://p1", "http://p2"]`. -/
theorem proxy_acquire_release_rotation_witness :
    ("http://p1" ≠ "")
    ∧ (get_proxy ["http://p1", "http://p2"] = (some "http://p1", ["http://p2"])
      ∧ release_proxy (some "http://p1") ["http://p2"]
          = ["http://p2", "http://p1"]
      ∧ (release_proxy (some "http://p1") ["http://p2"]).Perm
          ["http://p1", "http://p2"]) :=
  ⟨by decide, proxy_acquire_release_rotation "http://p1" ["http://p2"]
    (by decide)⟩

/-! ## Bootstrap device creation (src/app/core/farm/processor.py)

`FarmProcessor._get_proxies` pops the pool `count` times, keeping the
non-`None` results.  `FarmProcessor._create_devices_for_account` computes
how many devices are missing, draws that many proxies, shrinks the batch
to the number of proxies obtained (logging the shortfall), and issues one
creation call per `zip`-ped fingerprint/proxy tuple. -/

/-- `FarmProcessor._get_proxies`: the `for i in range(count)` loop. -/
def _get_proxies : Nat → ProxyPool → List String × ProxyPool
  | 0, pool => ([], pool)
  | n + 1, pool =>
      match get_proxy pool with
      | (some p, pool') =>
          let r := _get_proxies n pool'
          (p :: r.1, r.2)
      | (none, pool') =>
          let r := _get_proxies n pool'
          (r.1, r.2)

theorem get_proxies_take_drop (n : Nat) :
    ∀ pool : ProxyPool, _get_proxies n pool = (pool.take n, pool.drop n) := by
  induction n with
  | zero => intro pool; simp [_get_proxies]
  | succ m ih =>
      intro pool
      cases pool with
      | nil => simp [_get_proxies, get_proxy, ih]
      | cons p rest => simp [_get_proxies, get_proxy, ih]

/-- `FarmProcessor._create_devices_for_account`, abstracted over the
persistence collaborator: `existing` is `len(nodes)` for the account,
`limit` the drawn target count, `pool` the proxy pool.  Returns the
number of device-creation calls issued (the length of the `zip` of
`browser_ids`/`user_agents`/`proxies`/`cpu_fingerprints`) and the
remaining pool. -/
def create_devices_for_account (existing limit : Nat) (pool : ProxyPool) :
    Nat × ProxyPool :=
  if existing = 0 ∨ existing < limit then
    let nodes_to_create := limit - existing
    let drawn := _get_proxies nodes_to_create pool
    let adjusted :=
      if drawn.1.length < nodes_to_create then drawn.1.length
      else nodes_to_create
    (min drawn.1.length adjusted, drawn.2)
  else (0, pool)

/-- C9: when an account's existing device count is below its drawn target,
the bootstrap issues exactly `min (missing slots) (pool size)` creation
calls — i.e. exactly as many devices as proxies actually obtained, never
more than the shortfall-adjusted batch. -/
theorem create_devices_min_of_missing_and_pool (existing limit : Nat)
    (pool : ProxyPool) (h : existing < limit) :
    (create_devices_for_account existing limit pool).1
      = min (limit - existing) pool.length := by
  unfold create_devices_for_account
  rw [if_pos (Or.inr h)]
  simp only [get_proxies_take_drop, List.length_take]
  by_cases hlt : min (limit - existing) pool.length < limit - existing
  · rw [if_pos hlt]; omega
  · rw [if_neg hlt]; omega

/-- Witness for C9: an account needing 2 devices with a pool of exactly
one proxy gets exactly one creation call. -/
theorem create_devices_min_of_missing_and_pool_witness :
    (0 < 2)
    ∧ (create_devices_for_account 0 2 ["http://p1"]).1
        = min (2 - 0) (["http://p1"] : List String).length
    ∧ (create_devices_for_account 0 2 ["http://p1"]).1 = 1 :=
  ⟨by decide, create_devices_min_of_missing_and_pool 0 2 ["http://p1"]
    (by decide), by decide⟩

/-! ## Account preparation (src/app/core/farm/processor.py, lines 66–86)

`FarmProcessor._prepare_accounts` iterates over the resolved account rows
and calls `list.remove` on each row without an auth token — mutating the
list while Python's list iterator walks it by increasing index. -/

/-- The fields of an `Account` row that this loop inspects. -/
structure FarmAccount where
  email : String
  auth_token : Option String
deriving DecidableEq, Repr

/-- The `for account in prepared_accounts: ... prepared_accounts.remove(account)`
loop, with Python's index-based list-iterator semantics: at step `i` the
iterator reads element `i` of the current (possibly already mutated) list;
`remove` deletes the first equal element. -/
def prepare_accounts_loop (l : List FarmAccount) (i : Nat) :
    List FarmAccount :=
  if h : i < l.length then
    let a := l.get ⟨i, h⟩
    if pyTruthyStrOpt a.auth_token then prepare_accounts_loop l (i + 1)
    else prepare_accounts_loop (l.erase a) (i + 1)
  else l
termination_by l.length - i
decreasing_by
  · omega
  · have hm : l.get ⟨i, h⟩ ∈ l := List.get_mem l i h
    have := List.length_erase_of_mem hm
    omega

/-- `FarmProcessor._prepare_accounts` restricted to its filtering loop. -/
def _prepare_accounts (accounts : List FarmAccount) : List FarmAccount :=
  prepare_accounts_loop accounts 0

/-- C3: evaluating the preparation loop on two adjacent rows that both
lack an auth token: removing the first row shifts the second one under
the iterator's cursor, so the second token-less row survives in the
prepared list — the code does not drop every credential-less account. -/
theorem prepare_accounts_keeps_adjacent_tokenless :
    _prepare_accounts
        [⟨"a@x.com", Option.none⟩, ⟨"b@x.com", Option.none⟩]
      = [⟨"b@x.com", Option.none⟩]
    ∧ pyTruthyStrOpt (Option.none : Option String) = false := by
  constructor
  · unfold _prepare_accounts
    rw [prepare_accounts_loop]
    simp [pyTruthyStrOpt, List.erase]
    rw [prepare_accounts_loop]
    simp
  · rfl

/-! ## Ready-set computation (src/app/core/farm/processor.py, 189–211
and 331–341)

Timestamps are modelled as integers (UTC seconds); `verify_sleep`
(src/app/utils/sleep.py) returns `True` for a `None` mark and otherwise
`False` exactly when the mark is strictly in the future.  A `datetime`
is always truthy in Python, so `if device.next_ping_at:` tests
`is not None`, matching `Option.isSome`. -/

/-- The `Device` fields inspected by the scheduler. -/
structure FarmDevice where
  device_id : String
  next_ping_at : Option Int
  next_task_request_at : Option Int
deriving DecidableEq, Repr

/-- `verify_sleep(value)` at current time `now`: `None` marks pass;
a set mark passes iff it is not strictly in the future. -/
def verify_sleep (value : Option Int) (now : Int) : Bool :=
  match value with
  | none => true
  | some t => !(t > now)

/-- The per-device readiness test actually applied by
`_get_ready_devices`: both marks unset, or a *set* ping mark that has
elapsed, or a *set* task mark that has elapsed. -/
def deviceReady (now : Int) (d : FarmDevice) : Bool :=
  (d.next_ping_at = none ∧ d.next_task_request_at = none)
  || (d.next_ping_at.isSome && verify_sleep d.next_ping_at now)
  || (d.next_task_request_at.isSome && verify_sleep d.next_task_request_at now)

/-- The readiness condition as the claim states it: the ping mark *or*
the task mark is unset or not after the current time. -/
def claimReady (now : Int) (d : FarmDevice) : Bool :=
  verify_sleep d.next_ping_at now || verify_sleep d.next_task_request_at now

/-- The `for device in prepared_devices` loop of `_get_ready_devices`,
with its early `break` (reached only on an iteration that appended
nothing, once `len(ready_devices) >= limit`). -/
def getReadyLoop (now : Int) (limit : Nat) (acc : List FarmDevice) :
    List FarmDevice → List FarmDevice
  | [] => acc
  | d :: rest =>
      if d.next_ping_at = none ∧ d.next_task_request_at = none then
        getReadyLoop now limit (acc ++ [d]) rest
      else if d.next_ping_at.isSome && verify_sleep d.next_ping_at now then
        getReadyLoop now limit (acc ++ [d]) rest
      else if d.next_task_request_at.isSome
          && verify_sleep d.next_task_request_at now then
        getReadyLoop now limit (acc ++ [d]) rest
      else if limit ≤ acc.length then acc
      else getReadyLoop now limit acc rest

/-- `FarmProcessor._get_ready_devices`: run the loop from an empty
accumulator, then return `ready_devices[:limit]`. -/
def _get_ready_devices (prepared_devices : List FarmDevice) (now : Int)
    (limit : Nat) : List FarmDevice :=
  (getReadyLoop now limit [] prepared_devices).take limit

/-- The composite batch selection of `farm_continuously` (line 337):
the capped ready list, with devices whose id is in the in-flight set
filtered out afterwards. -/
def readyBatch (prepared_devices : List FarmDevice) (now : Int)
    (limit : Nat) (in_progress : List String) : List FarmDevice :=
  (_get_ready_devices prepared_devices now limit).filter
    (fun d => !in_progress.contains d.device_id)

theorem getReadyLoop_take (now : Int) (limit : Nat) :
    ∀ (l acc : List FarmDevice),
      (getReadyLoop now limit acc l).take limit
        = (acc ++ l.filter (deviceReady now)).take limit := by
  intro l
  induction l with
  | nil => intro acc; simp [getReadyLoop]
  | cons d rest ih =>
      intro acc
      by_cases h1 : d.next_ping_at = none ∧ d.next_task_request_at = none
      · rw [getReadyLoop, if_pos h1, ih]
        have hr : deviceReady now d = true := by
          simp [deviceReady, h1.1, h1.2]
        simp [List.filter_cons, hr]
      · rw [getReadyLoop, if_neg h1]
        by_cases h2 : d.next_ping_at.isSome && verify_sleep d.next_ping_at now
        · rw [if_pos h2, ih]
          have hr : deviceReady now d = true := by
            simp [deviceReady, h2]
          simp [List.filter_cons, hr]
        · rw [if_neg h2]
          by_cases h3 : d.next_task_request_at.isSome
              && verify_sleep d.next_task_request_at now
          · rw [if_pos h3, ih]
            have hr : deviceReady now d = true := by
              simp only [deviceReady, h3]
              simp
            simp [List.filter_cons, hr]
          · rw [if_neg h3]
            have hr : deviceReady now d = false := by
              simp only [deviceReady]
              rw [Bool.or_eq_false_iff, Bool.or_eq_false_iff]
              refine ⟨⟨?_, ?_⟩, ?_⟩
              · simp only [decide_eq_false_iff_not]
                exact h1
              · exact Bool.of_not_eq_true h2
              · exact Bool.of_not_eq_true h3
            by_cases h4 : limit ≤ acc.length
            · rw [if_pos h4]
              rw [List.take_append_of_le_length h4]
            · rw [if_neg h4, ih]
              simp [List.filter_cons, hr]

theorem get_ready_devices_eq_filter_take (prepared : List FarmDevice)
    (now : Int) (limit : Nat) :
    _get_ready_devices prepared now limit
      = (prepared.filter (deviceReady now)).take limit := by
  unfold _get_ready_devices
  rw [getReadyLoop_take]
  simp

/-- C1 counterexample: at time 100, a device whose ping mark is unset but
whose task mark is set to the future time 200 satisfies the claim's
readiness condition (its ping mark is unset), is not in-flight, and the
batch is far below the cap — yet the computed batch is empty: the code
only treats an unset mark as qualifying when *both* marks are unset. -/
theorem ready_set_unset_ping_counterexample :
    claimReady 100 ⟨"d1", Option.none, some 200⟩ = true
    ∧ ([] : List String).contains "d1" = false
    ∧ readyBatch [⟨"d1", Option.none, some 200⟩] 100 200 [] = [] := by
  refine ⟨by decide, by decide, by decide⟩

/-- C1 (amended): the batch returned by one scheduling tick is the
ready-filtered device list capped at `limit`, minus in-flight devices;
a device is ready iff *both* marks are unset, or a *set* ping mark has
elapsed, or a *set* task mark has elapsed (a device with exactly one
unset mark qualifies only through its other, set mark); every batched
device is ready and not in-flight; the batch never exceeds `limit`; and
a device whose two marks are both set and strictly in the future is
never in the batch. -/
theorem ready_batch_characterization (prepared : List FarmDevice)
    (now : Int) (limit : Nat) (in_progress : List String) :
    (readyBatch prepared now limit in_progress).length ≤ limit
    ∧ readyBatch prepared now limit in_progress
        = ((prepared.filter (deviceReady now)).take limit).filter
            (fun d => !in_progress.contains d.device_id)
    ∧ (∀ d : FarmDevice, deviceReady now d = true ↔
        ((d.next_ping_at = none ∧ d.next_task_request_at = none)
          ∨ (∃ t, d.next_ping_at = some t ∧ t ≤ now)
          ∨ (∃ t, d.next_task_request_at = some t ∧ t ≤ now)))
    ∧ (∀ d ∈ readyBatch prepared now limit in_progress,
        deviceReady now d = true ∧ in_progress.contains d.device_id = false)
    ∧ (∀ d : FarmDevice, (∃ t, d.next_ping_at = some t ∧ now < t) →
        (∃ t, d.next_task_request_at = some t ∧ now < t) →
        d ∉ readyBatch prepared now limit in_progress) := by
  have hbatch : readyBatch prepared now limit in_progress
      = ((prepared.filter (deviceReady now)).take limit).filter
          (fun d => !in_progress.contains d.device_id) := by
    unfold readyBatch
    rw [get_ready_devices_eq_filter_take]
  have hchar : ∀ d : FarmDevice, deviceReady now d = true ↔
      ((d.next_ping_at = none ∧ d.next_task_request_at = none)
        ∨ (∃ t, d.next_ping_at = some t ∧ t ≤ now)
        ∨ (∃ t, d.next_task_request_at = some t ∧ t ≤ now)) := by
    intro d
    cases hp : d.next_ping_at with
    | none =>
        cases ht : d.next_task_request_at with
        | none => simp [deviceReady, verify_sleep, hp, ht]
        | some t => simp [deviceReady, verify_sleep, hp, ht]
    | some t =>
        cases ht : d.next_task_request_at with
        | none => simp [deviceReady, verify_sleep, hp, ht]
        | some u => simp [deviceReady, verify_sleep, hp, ht]
  have hmem : ∀ d ∈ readyBatch prepared now limit in_progress,
      deviceReady now d = true
      ∧ in_progress.contains d.device_id = false := by
    intro d hd
    rw [hbatch, List.mem_filter] at hd
    obtain ⟨hin, hnc⟩ := hd
    have hready : deviceReady now d = true :=
      List.of_mem_filter (List.mem_of_mem_take hin)
    simp only [Bool.not_eq_true'] at hnc
    exact ⟨hready, hnc⟩
  refine ⟨?_, hbatch, hchar, hmem, ?_⟩
  · rw [hbatch]
    calc (((prepared.filter (deviceReady now)).take limit).filter
            (fun d => !in_progress.contains d.device_id)).length
        ≤ ((prepared.filter (deviceReady now)).take limit).length :=
          List.length_filter_le _ _
      _ ≤ limit := List.length_take_le _ _
  · intro d hpf htf hd
    have hready := (hmem d hd).1
    rw [hchar d] at hready
    obtain ⟨tp, hp, hp'⟩ := hpf
    obtain ⟨tt, ht, ht'⟩ := htf
    rcases hready with ⟨h1, _⟩ | ⟨t, h1, h2⟩ | ⟨t, h1, h2⟩
    · rw [hp] at h1; exact Option.noConfusion h1
    · rw [hp] at h1
      injection h1 with h3
      omega
    · rw [ht] at h1
      injection h1 with h3
      omega

/-! ## Device unit execution (src/app/core/farm/processor.py, 213–310)

`schedule_device_farming` re-evaluates both eligibilities, returns early
when neither holds, and otherwise performs up to four awaited actions in
order: the ping exchange, the `next_ping_at` update (`now + 2min`), the
task-request exchange, and the `next_task_request_at` update
(`now + 1min`).  `_run_device_farming` wraps this in
`asyncio.wait_for(..., timeout)`; a timeout cancels the unit at its
current await point, so exactly a prefix of the action sequence has been
applied, and the `finally:` clause discards the device id from
`devices_in_progress` regardless of outcome.  Time is modelled in UTC
seconds; each `get_sleep_until` call is taken at the tick time `now`. -/

/-- The awaited actions inside `schedule_device_farming`, in program
order. -/
inductive UnitStep where
  | pingExchange
  | setPingMark
  | taskExchange
  | setTaskMark
deriving DecidableEq, Repr

/-- The action sequence of one unit: empty when neither mark is eligible
(the early return); otherwise the ping pair when ping-eligible followed
by the task pair when task-eligible. -/
def unitSteps (d : FarmDevice) (now : Int) : List UnitStep :=
  if verify_sleep d.next_task_request_at now = false
      ∧ verify_sleep d.next_ping_at now = false then []
  else
    (if verify_sleep d.next_ping_at now then
      [UnitStep.pingExchange, UnitStep.setPingMark] else [])
    ++ (if verify_sleep d.next_task_request_at now then
      [UnitStep.taskExchange, UnitStep.setTaskMark] else [])

/-- Effect of one awaited action on the device row.  The exchanges touch
no schedule mark; the updates persist `now + 2min` resp. `now + 1min`. -/
def applyStep (now : Int) (d : FarmDevice) : UnitStep → FarmDevice
  | UnitStep.pingExchange => d
  | UnitStep.setPingMark => { d with next_ping_at := some (now + 120) }
  | UnitStep.taskExchange => d
  | UnitStep.setTaskMark => { d with next_task_request_at := some (now + 60) }

/-- `schedule_device_farming` under `asyncio.wait_for`: `completed`
awaited actions ran before cancellation (or all of them, when
`completed ≥` the sequence length). -/
def schedule_device_farming (d : FarmDevice) (now : Int) (completed : Nat) :
    FarmDevice :=
  ((unitSteps d now).take completed).foldl (applyStep now) d

/-- `_run_device_farming`: run the (possibly cancelled) unit, then the
`finally:` clause discards the device id from the in-flight set. -/
def _run_device_farming (d : FarmDevice) (now : Int) (completed : Nat)
    (in_progress : List String) : FarmDevice × List String :=
  (schedule_device_farming d now completed, in_progress.erase d.device_id)

/-- C6: in a unit where both marks are eligible, if the ping exchange and
its mark update complete and the wall-clock timeout then cancels the unit
during the task-request phase (before the task mark update), the device
ends with `next_ping_at = now + 2min` and `next_task_request_at`
unchanged; and whether the unit timed out or ran to completion, the
device id is no longer in the (duplicate-free) in-flight set. -/
theorem device_unit_timeout_frame (d : FarmDevice) (now : Int) (k : Nat)
    (in_progress : List String)
    (hping : verify_sleep d.next_ping_at now = true)
    (htask : verify_sleep d.next_task_request_at now = true)
    (hnodup : in_progress.Nodup) :
    (2 ≤ k → k ≤ 3 →
      (_run_device_farming d now k in_progress).1.next_ping_at
          = some (now + 120)
      ∧ (_run_device_farming d now k in_progress).1.next_task_request_at
          = d.next_task_request_at)
    ∧ (4 ≤ k →
      (_run_device_farming d now k in_progress).1.next_ping_at
          = some (now + 120)
      ∧ (_run_device_farming d now k in_progress).1.next_task_request_at
          = some (now + 60))
    ∧ d.device_id ∉ (_run_device_farming d now k in_progress).2 := by
  have hsteps : unitSteps d now
      = [UnitStep.pingExchange, UnitStep.setPingMark,
         UnitStep.taskExchange, UnitStep.setTaskMark] := by
    unfold unitSteps
    rw [if_neg (by simp [hping, htask]), if_pos hping, if_pos htask]
    rfl
  refine ⟨?_, ?_, ?_⟩
  · intro h2 h3
    have hk : k = 2 ∨ k = 3 := by omega
    rcases hk with rfl | rfl <;>
      simp [_run_device_farming, schedule_device_farming, hsteps, applyStep]
  · intro h4
    have htake : List.take k
        [UnitStep.pingExchange, UnitStep.setPingMark,
         UnitStep.taskExchange, UnitStep.setTaskMark]
        = [UnitStep.pingExchange, UnitStep.setPingMark,
           UnitStep.taskExchange, UnitStep.setTaskMark] :=
      List.take_of_length_le (by simpa using h4)
    simp [_run_device_farming, schedule_device_farming, hsteps, htake,
      applyStep]
  · show d.device_id ∉ in_progress.erase d.device_id
    exact hnodup.not_mem_erase

/-- Witness for C6: a device with both marks elapsed at time 100, unit
cancelled after two completed actions, in-flight set `["w1"]`. -/
theorem device_unit_timeout_frame_witness :
    (verify_sleep (some 0) 100 = true
      ∧ (["w1"] : List String).Nodup)
    ∧ ((2 ≤ 2 → 2 ≤ 3 →
        (_run_device_farming ⟨"w1", some 0, some 0⟩ 100 2 ["w1"]).1.next_ping_at
            = some (100 + 120)
        ∧ (_run_device_farming ⟨"w1", some 0, some 0⟩ 100 2
              ["w1"]).1.next_task_request_at
            = (⟨"w1", some 0, some 0⟩ : FarmDevice).next_task_request_at)
      ∧ (4 ≤ 2 →
        (_run_device_farming ⟨"w1", some 0, some 0⟩ 100 2 ["w1"]).1.next_ping_at
            = some (100 + 120)
        ∧ (_run_device_farming ⟨"w1", some 0, some 0⟩ 100 2
              ["w1"]).1.next_task_request_at
            = some (100 + 60))
      ∧ (⟨"w1", some 0, some 0⟩ : FarmDevice).device_id
          ∉ (_run_device_farming ⟨"w1", some 0, some 0⟩ 100 2 ["w1"]).2) :=
  ⟨⟨by decide, by decide⟩,
    device_unit_timeout_frame ⟨"w1", some 0, some 0⟩ 100 2 ["w1"]
      (by decide) (by decide) (by decide)⟩

/-! ## Failure classification
(src/app/core/modules/registration.py, 246–315)

`_should_rotate_proxy_for_error` lowercases `str(error)`, returns `False`
when any database or business pattern occurs in it, then returns `True`
when the exception type name contains `requesterror`/`curlerror` or any
transport pattern occurs in the message, else `False`.  Lowercasing is
modelled per character (`Char.toLower`), covering the ASCII messages
involved; `x in y` is substring containment. -/

/-- Python's `needle in haystack` on strings. -/
def strIn (needle : List Char) : List Char → Bool
  | [] => needle.isEmpty
  | c :: t => needle.isPrefixOf (c :: t) || strIn needle t

/-- `str.lower()`, per character. -/
def pyLower (s : String) : List Char :=
  s.data.map Char.toLower

/-- The `database_errors` pattern list. -/
def database_errors : List String :=
  ["table", "column", "database", "sqlite", "no such table",
   "no such column", "schema", "migration"]

/-- The `non_proxy_errors` pattern list. -/
def non_proxy_errors : List String :=
  ["alias not found", "email already exist", "invalid credentials",
   "unauthorized", "forbidden", "not found", "bad request",
   "validation failed", "session is closed", "session closed",
   "cannot send request"]

/-- The `proxy_errors` pattern list. -/
def proxy_errors : List String :=
  ["connection", "connect", "timeout", "timed out", "network",
   "unreachable", "refused", "reset", "curl", "ssl", "tls", "tunnel",
   "failed to connect", "connection aborted", "connection reset",
   "connection refused", "could not connect", "dns", "proxy",
   "curl_cffi", "ctype", "cdata pointer", "requesterror", "curlerror"]

/-- `DatahiveRegistration._should_rotate_proxy_for_error` for a non-`None`
exception with message `error_msg` (its `str()`) and type name
`error_type_name`. -/
def _should_rotate_proxy_for_error (error_msg error_type_name : String) :
    Bool :=
  let msg := pyLower error_msg
  if (database_errors ++ non_proxy_errors).any
      (fun p => strIn p.data msg) then false
  else
    let etype := pyLower error_type_name
    if strIn "requesterror".data etype || strIn "curlerror".data etype then
      true
    else if proxy_errors.any (fun p => strIn p.data msg) then true
    else false

/-- C8 counterexample: the message `"connection already exist"` contains
`"already exist"`, so the claim calls it non-rotatable; but the
business-pattern list only carries `"email already exist"`, and the
transport pattern `"connection"` matches, so the classifier rotates. -/
theorem classifier_already_exist_counterexample :
    strIn "already exist".data (pyLower "connection already exist") = true
    ∧ _should_rotate_proxy_for_error "connection already exist" "Exception"
        = true := by
  refine ⟨by decide, by decide⟩

/-- C8 (amended): a message containing `"connection refused"` classifies
as rotatable provided no database or business pattern occurs in it; a
message containing `"already exist"` classifies as non-rotatable provided
no transport pattern occurs in it and the exception type name contains
neither `requesterror` nor `curlerror`. -/
theorem classifier_refused_rotatable_exist_not :
    (∀ msg ty : String,
      strIn "connection refused".data (pyLower msg) = true →
      (∀ p ∈ database_errors ++ non_proxy_errors,
        strIn p.data (pyLower msg) = false) →
      _should_rotate_proxy_for_error msg ty = true)
    ∧ (∀ msg ty : String,
      strIn "already exist".data (pyLower msg) = true →
      (∀ p ∈ proxy_errors, strIn p.data (pyLower msg) = false) →
      strIn "requesterror".data (pyLower ty) = false →
      strIn "curlerror".data (pyLower ty) = false →
      _should_rotate_proxy_for_error msg ty = false) := by
  constructor
  · intro msg ty hrefused hno
    unfold _should_rotate_proxy_for_error
    have hany : (database_errors ++ non_proxy_errors).any
        (fun p => strIn p.data (pyLower msg)) = false := by
      rw [List.any_eq_false]
      intro p hp
      simp [hno p hp]
    rw [if_neg (by simp [hany])]
    by_cases hty : strIn "requesterror".data (pyLower ty)
        || strIn "curlerror".data (pyLower ty)
    · rw [if_pos hty]
    · rw [if_neg hty]
      have hproxy : proxy_errors.any
          (fun p => strIn p.data (pyLower msg)) = true := by
        rw [List.any_eq_true]
        refine ⟨"connection refused", by decide, ?_⟩
        simpa using hrefused
      rw [if_pos (by simpa using hproxy)]
  · intro msg ty _ hno hreq hcurl
    unfold _should_rotate_proxy_for_error
    by_cases hdb : (database_errors ++ non_proxy_errors).any
        (fun p => strIn p.data (pyLower msg)) = true
    · rw [if_pos hdb]
    · rw [if_neg hdb]
      rw [if_neg (by simp [hreq, hcurl])]
      have hproxy : proxy_errors.any
          (fun p => strIn p.data (pyLower msg)) = false := by
        rw [List.any_eq_false]
        intro p hp
        simp [hno p hp]
      rw [if_neg (by simp [hproxy])]

/-- Witness for C8 on the plain messages `"connection refused"`
(rotatable) and `"already exist"` (non-rotatable), type `Exception`. -/
theorem classifier_refused_rotatable_exist_not_witness :
    _should_rotate_proxy_for_error "connection refused" "Exception" = true
    ∧ _should_rotate_proxy_for_error "already exist" "Exception" = false :=
  ⟨classifier_refused_rotatable_exist_not.1 "connection refused" "Exception"
      (by decide) (by decide),
    classifier_refused_rotatable_exist_not.2 "already exist" "Exception"
      (by decide) (by decide) (by decide) (by decide)⟩

/-! ## Python values

A common shallow embedding of the Python values the rule engine works
with: `None`, booleans, integers, strings, lists, and string-keyed dicts
(in insertion order, keys unique). -/

inductive PyVal where
  | none
  | bool (b : Bool)
  | int (n : Int)
  | str (s : String)
  | list (items : List PyVal)
  | dict (entries : List (String × PyVal))
deriving Repr

/-- Python `d[k] = v` on an (ordered, unique-key) dict: replace in place
or append. -/
def dictSet : List (String × PyVal) → String → PyVal →
    List (String × PyVal)
  | [], k, v => [(k, v)]
  | (k', v') :: rest, k, v =>
      if k' = k then (k, v) :: rest else (k', v') :: dictSet rest k v

/-- Follow a chain of dict keys. -/
def pyGetPath : PyVal → List String → Option PyVal
  | v, [] => some v
  | PyVal.dict es, k :: rest =>
      match es.lookup k with
      | some v => pyGetPath v rest
      | Option.none => Option.none
  | _, _ :: _ => Option.none

/-! ## Submission payload fallback (src/app/core/farm/task.py, 212–247)

`build_task_json_data` falls back to a fixed canonical empty shape when
the fetched HTML is `None` or when `run_yaml_rules_on_html` (YAML parse +
extraction) raises.  The rules run and the randomized
`_generate_perf_metrics` output are abstracted as parameters: the run as
an `Except` (its `.error` case standing for any raised exception), the
metrics as an opaque value. -/

/-- The fixed canonical empty shape assigned in both fallback arms. -/
def emptyStepOutputs : List (String × PyVal) :=
  [("pageData", PyVal.dict
    [("fields", PyVal.dict
      [("title", PyVal.str ""),
       ("createdAt", PyVal.str ""),
       ("question", PyVal.str ""),
       ("answers", PyVal.list [])])])]

/-- `FarmTask.build_task_json_data`: choose the step outputs (fallback on
absent HTML or a raising rules run), attach `perfMetrics`, and assemble
the payload. -/
def build_task_json_data (target_url_html : Option String)
    (run_yaml : Except Unit (List (String × PyVal)))
    (perf_metrics : PyVal) (context : Option PyVal) : PyVal :=
  let step_outputs :=
    match target_url_html with
    | Option.none => emptyStepOutputs
    | some _ =>
        match run_yaml with
        | Except.error _ => emptyStepOutputs
        | Except.ok so => so
  let step_outputs := dictSet step_outputs "perfMetrics" perf_metrics
  PyVal.dict
    [("result", PyVal.dict step_outputs),
     ("metadata", perf_metrics),
     ("context", (context.getD (PyVal.dict [])))]

/-- C5: whenever the HTML is absent or the YAML-rules run raises, the
assembled payload's `result.pageData.fields` is exactly the canonical
empty shape — title, createdAt and question empty strings, answers an
empty list — for every rules outcome, metrics value and context. -/
theorem build_task_json_fallback_shape (target_url_html : Option String)
    (run_yaml : Except Unit (List (String × PyVal)))
    (perf_metrics : PyVal) (context : Option PyVal)
    (h : target_url_html = Option.none ∨ run_yaml = Except.error ()) :
    pyGetPath
        (build_task_json_data target_url_html run_yaml perf_metrics context)
        ["result", "pageData", "fields"]
      = some (PyVal.dict
          [("title", PyVal.str ""),
           ("createdAt", PyVal.str ""),
           ("question", PyVal.str ""),
           ("answers", PyVal.list [])]) := by
  rcases h with h | h
  · subst h
    simp [build_task_json_data, emptyStepOutputs, dictSet, pyGetPath,
      List.lookup]
  · subst h
    cases target_url_html with
    | none =>
        simp [build_task_json_data, emptyStepOutputs, dictSet, pyGetPath,
          List.lookup]
    | some s =>
        simp [build_task_json_data, emptyStepOutputs, dictSet, pyGetPath,
          List.lookup]

/-- Witness for C5 with absent HTML, a successful (irrelevant) rules run,
opaque metrics and no context. -/
theorem build_task_json_fallback_shape_witness :
    ((Option.none : Option String) = Option.none
      ∨ (Except.ok [] : Except Unit (List (String × PyVal)))
          = Except.error ())
    ∧ pyGetPath
        (build_task_json_data Option.none (Except.ok []) PyVal.none
          Option.none)
        ["result", "pageData", "fields"]
      = some (PyVal.dict
          [("title", PyVal.str ""),
           ("createdAt", PyVal.str ""),
           ("question", PyVal.str ""),
           ("answers", PyVal.list [])]) :=
  ⟨Or.inl rfl,
    build_task_json_fallback_shape Option.none (Except.ok []) PyVal.none
      Option.none (Or.inl rfl)⟩

/-! ## Hashable keys (src/app/core/farm/task.py, `_make_hashable`)

`_make_hashable` turns extracted records into nested tuples: dicts become
tuples of `(key, hashable-value)` pairs sorted by key, lists/tuples map
elementwise, primitives stay.  Python set membership on the results is
deep structural equality; dict keys are unique strings, so the pair sort
is determined by key comparison alone. -/

inductive HKey where
  | none
  | bool (b : Bool)
  | int (n : Int)
  | str (s : String)
  | tup (items : List HKey)
deriving Repr

mutual

def hkeyBeq : HKey → HKey → Bool
  | HKey.none, HKey.none => true
  | HKey.bool a, HKey.bool b => a == b
  | HKey.int a, HKey.int b => a == b
  | HKey.str a, HKey.str b => a == b
  | HKey.tup xs, HKey.tup ys => hkeyListBeq xs ys
  | _, _ => false

def hkeyListBeq : List HKey → List HKey → Bool
  | [], [] => true
  | x :: xs, y :: ys => hkeyBeq x y && hkeyListBeq xs ys
  | _, _ => false

end

theorem hkeyBeq_iff_aux (n : Nat) :
    (∀ a b : HKey, sizeOf a ≤ n → (hkeyBeq a b = true ↔ a = b))
    ∧ (∀ xs ys : List HKey, sizeOf xs ≤ n →
        (hkeyListBeq xs ys = true ↔ xs = ys)) := by
  induction n with
  | zero =>
      constructor
      · intro a b ha
        exact absurd ha (by cases a <;> simp <;> omega)
      · intro xs ys hx
        exact absurd hx (by cases xs <;> simp <;> omega)
  | succ m ih =>
      constructor
      · intro a b ha
        cases a <;> cases b <;>
          simp only [hkeyBeq, beq_iff_eq, HKey.bool.injEq, HKey.int.injEq,
            HKey.str.injEq, HKey.tup.injEq, reduceCtorEq,
            Bool.false_eq_true] <;>
          try rfl
        case tup.tup xs ys =>
          apply ih.2
          have : sizeOf (HKey.tup xs) = 1 + sizeOf xs := by simp
          omega
      · intro xs ys hx
        cases xs <;> cases ys <;>
          simp only [hkeyListBeq, Bool.and_eq_true, List.cons.injEq,
            reduceCtorEq, Bool.false_eq_true] <;> try rfl
        case cons.cons x xs' y ys' =>
          have hsz : sizeOf (x :: xs') = 1 + sizeOf x + sizeOf xs' := by
            simp
          rw [ih.1 x y (by omega), ih.2 xs' ys' (by omega)]

/-- `hkeyBeq` is deep structural equality. -/
theorem hkeyBeq_iff (a b : HKey) : hkeyBeq a b = true ↔ a = b :=
  (hkeyBeq_iff_aux (sizeOf a)).1 a b le_rfl

instance : DecidableEq HKey :=
  fun a b => decidable_of_iff (hkeyBeq a b = true) (hkeyBeq_iff a b)

/-- Stable insertion of a `(key, value)` pair by key order; models
Python's `sorted` on pair tuples whose first components (dict keys) are
unique, so the second components are never compared. -/
def insertPairByKey (p : String × HKey) :
    List (String × HKey) → List (String × HKey)
  | [] => [p]
  | q :: rest =>
      if p.1 ≤ q.1 then p :: q :: rest else q :: insertPairByKey p rest

/-- `sorted((k, _make_hashable(v)) for k, v in value.items())`. -/
def sortPairsByKey : List (String × HKey) → List (String × HKey)
  | [] => []
  | p :: rest => insertPairByKey p (sortPairsByKey rest)

mutual

/-- `FarmTask._make_hashable`: dicts become key-sorted tuples of
`(key, hashable-value)` 2-tuples, lists map elementwise, primitives are
left as themselves. -/
def _make_hashable : PyVal → HKey
  | PyVal.none => HKey.none
  | PyVal.bool b => HKey.bool b
  | PyVal.int n => HKey.int n
  | PyVal.str s => HKey.str s
  | PyVal.list items => HKey.tup (makeHashableList items)
  | PyVal.dict entries =>
      HKey.tup ((sortPairsByKey (makeHashableEntries entries)).map
        (fun p => HKey.tup [HKey.str p.1, p.2]))

def makeHashableList : List PyVal → List HKey
  | [] => []
  | v :: rest => _make_hashable v :: makeHashableList rest

def makeHashableEntries : List (String × PyVal) → List (String × HKey)
  | [] => []
  | (k, v) :: rest => (k, _make_hashable v) :: makeHashableEntries rest

end

/-! ## Field extraction (src/app/core/farm/task.py, 62–147)

HTML nodes are embedded abstractly: a node carries its XPath-selection
function (what `node.xpath(selector)` returns, modelled for element
node-sets) and its `itertext()` fragments.  The embedding covers rule
documents without `regexp`/`template` entries (absent `.get()` keys), for
which `_apply_regexp_and_template` is its `if not regexp:` arm,
`_normalize_whitespace`. -/

inductive XNode where
  | mk (xpathSel : String → List XNode) (texts : List String)

/-- What `node.xpath(selector)` returns. -/
def XNode.xpathSel : XNode → String → List XNode
  | XNode.mk f _, s => f s

/-- The node's `itertext()` fragments. -/
def XNode.texts : XNode → List String
  | XNode.mk _ t => t

/-- `FarmTask._node_to_text` on an element node: join the non-empty
stripped text fragments with single spaces. -/
def _node_to_text (n : XNode) : String :=
  String.intercalate " "
    ((n.texts.map (fun t => t.trim)).filter (fun t => !(t = "")))

theorem dropWhile_length_le {α : Type} (p : α → Bool) :
    ∀ l : List α, (l.dropWhile p).length ≤ l.length := by
  intro l
  induction l with
  | nil => simp [List.dropWhile]
  | cons c t ih =>
      rw [List.dropWhile_cons]
      by_cases h : p c
      · simp only [if_pos h, List.length_cons]
        omega
      · simp [if_neg h]

theorem dropWhile_length_lt_cons {α : Type} (p : α → Bool) (c : α)
    (l : List α) : (l.dropWhile p).length < (c :: l).length := by
  have := dropWhile_length_le p l
  simp only [List.length_cons]
  omega

/-- `re.sub(r'\s+', ' ', text)`: collapse each whitespace run to one
space. -/
def collapseWs : List Char → List Char
  | [] => []
  | c :: rest =>
      if c.isWhitespace then ' ' :: collapseWs (rest.dropWhile Char.isWhitespace)
      else c :: collapseWs rest
termination_by cs => cs.length
decreasing_by
  all_goals first
    | exact dropWhile_length_lt_cons _ _ _
    | (simp only [List.length_cons]; omega)

/-- `FarmTask._normalize_whitespace`. -/
def _normalize_whitespace (s : String) : String :=
  (String.mk (collapseWs s.data)).trim

/-- A field rule as read by `extract_field`: `type`, `field_name` and
`xpath` are always read; OBJECT/OBJECTS rules carry a `child` list. -/
inductive FieldDef where
  | property (field_name xpath : String)
  | object (field_name xpath : String) (child : List FieldDef)
  | objects (field_name xpath : String) (child : List FieldDef)

/-- The rule's `field_name`. -/
def FieldDef.fieldName : FieldDef → String
  | FieldDef.property n _ => n
  | FieldDef.object n _ _ => n
  | FieldDef.objects n _ _ => n

/-- The `if key in seen: continue` deduplication loop of the OBJECTS
branch, with `seen` the set of keys already emitted. -/
def dedupLoop (seen : List HKey) : List PyVal → List PyVal
  | [] => []
  | o :: rest =>
      let key := _make_hashable o
      if seen.any (fun k => hkeyBeq k key) then dedupLoop seen rest
      else o :: dedupLoop (key :: seen) rest

/-- Deduplicate by `_make_hashable` key, keeping first occurrences. -/
def dedupRecords (arr : List PyVal) : List PyVal :=
  dedupLoop [] arr

mutual

/-- `FarmTask.extract_field` (rules without `regexp`): PROPERTY takes the
first selected node's flattened text, whitespace-normalized (empty string
when nothing matches); OBJECT extracts the named child fields from the
same node; OBJECTS extracts one record per selected node and
deduplicates. -/
def extract_field (node : XNode) : FieldDef → PyVal
  | FieldDef.property _ xpath =>
      match node.xpathSel xpath with
      | [] => PyVal.str ""
      | m :: _ => PyVal.str (_normalize_whitespace (_node_to_text m))
  | FieldDef.object _ _ child => PyVal.dict (extractChildren node child)
  | FieldDef.objects _ xpath child =>
      PyVal.list (dedupRecords ((node.xpathSel xpath).map
        (fun item => PyVal.dict (extractChildren item child))))

/-- The `for child in field_def.get('child', [])` record-building loop
shared by the OBJECT and OBJECTS branches. -/
def extractChildren (node : XNode) : List FieldDef → List (String × PyVal)
  | [] => []
  | c :: rest =>
      (c.fieldName, extract_field node c) :: extractChildren node rest

end

theorem filter_length_lt_cons {α : Type} (p : α → Bool) (c : α)
    (l : List α) : (l.filter p).length < (c :: l).length := by
  have := List.length_filter_le p l
  simp only [List.length_cons]
  omega

/-- Deduplication as the claim describes it: keep the first record and
drop every later record that is structurally identical to it, recursing
on what remains — first-seen order over distinct records. -/
def dedupFirstSeen : List PyVal → List PyVal
  | [] => []
  | o :: rest =>
      o :: dedupFirstSeen (rest.filter
        (fun p => !(hkeyBeq (_make_hashable p) (_make_hashable o))))
termination_by l => l.length
decreasing_by
  · exact filter_length_lt_cons _ _ _

/-- `hkeyBeq` agrees with decidable equality. -/
theorem hkeyBeq_eq_decide (a b : HKey) : hkeyBeq a b = decide (a = b) := by
  by_cases h : a = b
  · rw [(hkeyBeq_iff a b).mpr h]
    simp [h]
  · have hd : decide (a = b) = false := by simp [h]
    rw [hd, ← Bool.not_eq_true]
    intro hkb
    exact h ((hkeyBeq_iff a b).mp hkb)

theorem any_decide_eq_mem (t : List HKey) (key : HKey) :
    (t.any fun k => decide (k = key)) = decide (key ∈ t) := by
  induction t with
  | nil => simp
  | cons a t ih =>
      by_cases h : a = key
      · simp [List.any_cons, List.mem_cons, h]
      · have h2 : ¬(key = a) := fun hh => h hh.symm
        simp [List.any_cons, ih, List.mem_cons, h, h2]

theorem seen_any_eq (seen : List HKey) (key : HKey) :
    (seen.any (fun k => hkeyBeq k key)) = decide (key ∈ seen) := by
  have hfun : (fun k => hkeyBeq k key) = (fun k => decide (k = key)) :=
    funext (fun k => hkeyBeq_eq_decide k key)
  rw [hfun]
  exact any_decide_eq_mem seen key

theorem dedupLoop_firstSeen (n : Nat) :
    ∀ l : List PyVal, l.length ≤ n → ∀ seen : List HKey,
      dedupLoop seen l = dedupFirstSeen
        (l.filter (fun o => !(decide (_make_hashable o ∈ seen)))) := by
  induction n with
  | zero =>
      intro l hl seen
      have hnil : l = [] := List.length_eq_zero.mp (by omega)
      subst hnil
      simp [dedupLoop, dedupFirstSeen]
  | succ m ih =>
      intro l hl seen
      cases l with
      | nil => simp [dedupLoop, dedupFirstSeen]
      | cons o rest =>
          simp only [dedupLoop, seen_any_eq, List.filter_cons]
          by_cases hmem : _make_hashable o ∈ seen
          · rw [if_pos (by simp [hmem]), if_neg (by simp [hmem])]
            exact ih rest (by simp only [List.length_cons] at hl; omega) seen
          · rw [if_neg (by simp [hmem]), if_pos (by simp [hmem])]
            rw [ih rest (by simp only [List.length_cons] at hl; omega)
              (_make_hashable o :: seen)]
            rw [dedupFirstSeen]
            congr 1
            rw [List.filter_filter]
            apply congrArg dedupFirstSeen
            apply List.filter_congr
            intro p _
            by_cases hpo : _make_hashable p = _make_hashable o <;>
              by_cases hps : _make_hashable p ∈ seen <;>
                simp [List.mem_cons, hkeyBeq_eq_decide, hpo, hps]

/-- The seen-set loop keeps exactly the first occurrence of each
structurally distinct record, in order. -/
theorem dedupRecords_eq_firstSeen (arr : List PyVal) :
    dedupRecords arr = dedupFirstSeen arr := by
  unfold dedupRecords
  rw [dedupLoop_firstSeen arr.length arr le_rfl []]
  congr 1
  simp

/-- C7: when the OBJECTS node-set is non-empty and every extracted child
record is structurally identical (equal `_make_hashable` key, i.e. deep
equality with key-sorted dict comparison) to the first one, the OBJECTS
result is exactly the singleton of the first record; and in general the
deduplication keeps the first occurrence of each distinct record, in
first-seen order. -/
theorem objects_extraction_dedup (node : XNode) (name xpath : String)
    (child : List FieldDef) (n0 : XNode) (rest : List XNode)
    (hsel : node.xpathSel xpath = n0 :: rest)
    (hsame : ∀ m ∈ rest,
      _make_hashable (PyVal.dict (extractChildren m child))
        = _make_hashable (PyVal.dict (extractChildren n0 child))) :
    extract_field node (FieldDef.objects name xpath child)
      = PyVal.list [PyVal.dict (extractChildren n0 child)]
    ∧ ∀ arr : List PyVal, dedupRecords arr = dedupFirstSeen arr := by
  refine ⟨?_, dedupRecords_eq_firstSeen⟩
  rw [extract_field, hsel, List.map_cons, dedupRecords_eq_firstSeen,
    dedupFirstSeen]
  have hnil : (rest.map (fun item => PyVal.dict (extractChildren item child))).filter
      (fun p => !(hkeyBeq (_make_hashable p)
        (_make_hashable (PyVal.dict (extractChildren n0 child))))) = [] := by
    rw [List.filter_eq_nil_iff]
    intro a ha
    rw [List.mem_map] at ha
    obtain ⟨m, hm, rfl⟩ := ha
    simp [(hkeyBeq_iff _ _).mpr (hsame m hm)]
  rw [hnil]
  simp [dedupFirstSeen]

/-- Witness for C7: a node whose selector yields two children; with no
child rules both records are the empty mapping, hence structurally
identical, and OBJECTS returns a single record. -/
theorem objects_extraction_dedup_witness :
    ((XNode.mk (fun _ => [XNode.mk (fun _ => []) ["a"],
        XNode.mk (fun _ => []) ["b"]]) []).xpathSel "//div"
      = XNode.mk (fun _ => []) ["a"] :: [XNode.mk (fun _ => []) ["b"]])
    ∧ (extract_field
        (XNode.mk (fun _ => [XNode.mk (fun _ => []) ["a"],
          XNode.mk (fun _ => []) ["b"]]) [])
        (FieldDef.objects "recs" "//div" [])
      = PyVal.list [PyVal.dict (extractChildren
          (XNode.mk (fun _ => []) ["a"]) [])]
      ∧ ∀ arr : List PyVal, dedupRecords arr = dedupFirstSeen arr) :=
  ⟨rfl,
    objects_extraction_dedup
      (XNode.mk (fun _ => [XNode.mk (fun _ => []) ["a"],
        XNode.mk (fun _ => []) ["b"]]) [])
      "recs" "//div" []
      (XNode.mk (fun _ => []) ["a"]) [XNode.mk (fun _ => []) ["b"]]
      rfl (fun m _ => rfl)⟩

/-! ## Placeholder resolution (src/app/core/farm/task.py, 11, 29–60)

`get_from_context` walks a dot-separated path; a segment of the form
`name[idx]` subscripts the value found under `name` (default `{}` when
missing).  Python raises on a non-dict `.get`, an unparsable index, or an
out-of-range subscript; the embedding returns `Except.error` there.  A
plain segment on a dict is `.get` (missing → `None`); on any other value
it is `getattr(cur, part, None)`, which for the embedded data values
(which expose no Python attributes used by rule documents) yields
`None`. -/

/-- Digits to a number, most significant first. -/
def digitsToNat (l : List Char) : Nat :=
  l.foldl (fun acc c => acc * 10 + (c.toNat - 48)) 0

/-- `int(s)` for the index substrings occurring in bracketed segments:
an optional sign followed by at least one digit (whitespace and digit
grouping underscores do not occur in these substrings). -/
def pyIntParse (s : String) : Option Int :=
  match s.data with
  | [] => Option.none
  | '-' :: rest =>
      if rest.isEmpty || !rest.all Char.isDigit then Option.none
      else some (-(digitsToNat rest : Int))
  | '+' :: rest =>
      if rest.isEmpty || !rest.all Char.isDigit then Option.none
      else some (digitsToNat rest : Int)
  | l =>
      if !l.all Char.isDigit then Option.none
      else some (digitsToNat l : Int)

/-- Python subscription `v[i]` with an integer index: sequences support
negative indices from the end; everything else (including the
string-keyed dicts of this engine, which hold no integer keys) raises. -/
def pyIndex (v : PyVal) (i : Int) : Except Unit PyVal :=
  match v with
  | PyVal.list items =>
      let n : Int := if i < 0 then i + items.length else i
      if n < 0 then Except.error ()
      else
        match items[n.toNat]? with
        | some w => Except.ok w
        | Option.none => Except.error ()
  | PyVal.str s =>
      let cs := s.data
      let n : Int := if i < 0 then i + cs.length else i
      if n < 0 then Except.error ()
      else
        match cs[n.toNat]? with
        | some c => Except.ok (PyVal.str (String.mk [c]))
        | Option.none => Except.error ()
  | _ => Except.error ()

/-- Does the segment take the bracket branch:
`'[' in part and part.endswith(']')`. -/
def isBracketSegment (part : String) : Bool :=
  part.data.contains '[' && (part.data.getLast? == some ']')

/-- `part[:-1].split('[', 1)`: the name before the first `[` and the
index substring after it. -/
def bracketSplit (part : String) : String × String :=
  let pre := part.data.dropLast
  (String.mk (pre.takeWhile (fun c => !(c = '['))),
   String.mk ((pre.dropWhile (fun c => !(c = '['))).drop 1))

/-- One iteration of the `for part in parts` loop of `get_from_context`:
either the next `cur`, or the exception the body raises.  The bracket arm
is `cur.get(name, {})` (raising on a non-dict), `int(idx_str)` and
`cur[idx]`; the plain arm is `.get` on a dict and `getattr(·, part, None)`
(= `None` for the embedded data values) otherwise. -/
def segStep (cur : PyVal) (part : String) : Except Unit PyVal :=
  if isBracketSegment part then
    match cur with
    | PyVal.dict entries =>
        match pyIntParse (bracketSplit part).2 with
        | some i =>
            pyIndex ((entries.lookup (bracketSplit part).1).getD
              (PyVal.dict [])) i
        | Option.none => Except.error ()
    | _ => Except.error ()
  else
    match cur with
    | PyVal.dict entries => Except.ok ((entries.lookup part).getD PyVal.none)
    | _ => Except.ok PyVal.none

/-- The `for part in parts` loop of `get_from_context`. -/
def codeGetParts : PyVal → List String → Except Unit PyVal
  | cur, [] => Except.ok cur
  | cur, part :: rest =>
      match segStep cur part with
      | Except.ok w => codeGetParts w rest
      | Except.error e => Except.error e

/-- Python `path.split('.')` (keeps empty groups; `""` splits to
`[""]`). -/
def splitDot : List Char → List (List Char)
  | [] => [[]]
  | c :: rest =>
      if c = '.' then [] :: splitDot rest
      else
        match splitDot rest with
        | [] => [[c]]
        | g :: gs => (c :: g) :: gs

/-- `FarmTask.get_from_context`. -/
def get_from_context (context : PyVal) (path : String) : Except Unit PyVal :=
  codeGetParts context ((splitDot path.data).map String.mk)

/-- Path resolution as the claim describes it: the same traversal made
total, with every failure resolving the whole path to `None`, so that
the caller substitutes the empty string. -/
def specGetParts : PyVal → List String → PyVal
  | cur, [] => cur
  | cur, part :: rest =>
      match segStep cur part with
      | Except.ok w => specGetParts w rest
      | Except.error _ => PyVal.none

/-- Wherever the code's traversal returns a value, the claim-side total
traversal returns the same value. -/
theorem codeGetParts_refines :
    ∀ (parts : List String) (cur v : PyVal),
      codeGetParts cur parts = Except.ok v → specGetParts cur parts = v := by
  intro parts
  induction parts with
  | nil =>
      intro cur v h
      simp only [codeGetParts, Except.ok.injEq] at h
      simp [specGetParts, h]
  | cons part rest ih =>
      intro cur v h
      rw [codeGetParts] at h
      rw [specGetParts]
      cases hs : segStep cur part with
      | ok w =>
          rw [hs] at h
          exact ih w v h
      | error e =>
          rw [hs] at h
          exact absurd h (by simp)

/-! ## `str(value)` and the placeholder scanner

`resolve_placeholders` substitutes `str(value)` for each resolved
placeholder (`''` for `None`).  `str` of containers is Python `repr`;
string escaping inside `repr` is not exercised by the engine's contexts
and is rendered plainly. -/

mutual

/-- Python `str(value)`. -/
def pyStr : PyVal → String
  | PyVal.str s => s
  | v => pyRepr v

/-- Python `repr(value)`. -/
def pyRepr : PyVal → String
  | PyVal.none => "None"
  | PyVal.bool b => if b then "True" else "False"
  | PyVal.int n => toString n
  | PyVal.str s => "\x27" ++ s ++ "\x27"
  | PyVal.list items =>
      "[" ++ String.intercalate ", " (pyReprList items) ++ "]"
  | PyVal.dict entries =>
      "\x7b" ++ String.intercalate ", " (pyReprEntries entries) ++ "\x7d"

def pyReprList : List PyVal → List String
  | [] => []
  | v :: rest => pyRepr v :: pyReprList rest

def pyReprEntries : List (String × PyVal) → List String
  | [] => []
  | (k, v) :: rest =>
      ("\x27" ++ k ++ "\x27: " ++ pyRepr v) :: pyReprEntries rest

end

/-- The characters the placeholder pattern accepts inside `{{...}}`:
`[\w\[\].'"-]` — word characters, brackets, dot, quotes and hyphen. -/
def pathChar (c : Char) : Bool :=
  c.isAlphanum || c = '_' || c = '[' || c = ']' || c = '.'
    || c.toNat = 39 || c = '"' || c = '-'

/-- The opening and closing brace characters of the placeholder
delimiters. -/
def openBrace : Char := Char.ofNat 123

def closeBrace : Char := Char.ofNat 125

theorem dropWhile_drop2_lt {α : Type} (p : α → Bool) (c c2 : α)
    (l : List α) :
    ((l.dropWhile p).drop 2).length < (c :: c2 :: l).length := by
  have := dropWhile_length_le p l
  have h2 := List.length_drop 2 (l.dropWhile p)
  simp only [List.length_cons]
  omega

/-- What one placeholder occurrence substitutes, given the resolved
value: `str(value) if value is not None else ''`. -/
def substPiece (v : PyVal) : List Char :=
  match v with
  | PyVal.none => []
  | _ => (pyStr v).data

/-- One scan step of `PLACEHOLDER_RE.sub(replace, obj)`: at the current
position, a match is two opening braces, a non-empty greedy run of path
characters (path characters are never braces, so the run is maximal),
then two closing braces.  A match yields the path and the characters
after the match; otherwise one character is emitted and scanning resumes
one position later; at the end of input whatever remains (nothing, or a
final lone opening brace) is emitted. -/
inductive ScanStep where
  | done (pending : List Char)
  | emit (c : Char) (rest : List Char)
  | hole (path : String) (rest : List Char)

def scanStep : List Char → ScanStep
  | [] => ScanStep.done []
  | c :: cs =>
      if c = openBrace then
        match cs with
        | [] => ScanStep.done [c]
        | c2 :: cs2 =>
            if c2 = openBrace then
              match cs2.takeWhile pathChar with
              | [] => ScanStep.emit c (c2 :: cs2)
              | _ :: _ =>
                  if (cs2.dropWhile pathChar).take 2
                      = [closeBrace, closeBrace] then
                    ScanStep.hole (String.mk (cs2.takeWhile pathChar))
                      ((cs2.dropWhile pathChar).drop 2)
                  else ScanStep.emit c (c2 :: cs2)
            else ScanStep.emit c (c2 :: cs2)
      else ScanStep.emit c cs

/-- Every `emit`/`hole` step strictly consumes input. -/
theorem scanStep_rest_lt (cs : List Char) :
    (∀ c rest, scanStep cs = ScanStep.emit c rest → rest.length < cs.length)
    ∧ (∀ path rest, scanStep cs = ScanStep.hole path rest →
        rest.length < cs.length) := by
  cases cs with
  | nil => exact ⟨fun c rest h => by simp [scanStep] at h,
      fun p rest h => by simp [scanStep] at h⟩
  | cons c cs' =>
      have hmain : ∀ s : ScanStep, scanStep (c :: cs') = s →
          (∀ ce rest, s = ScanStep.emit ce rest →
            rest.length < (c :: cs').length)
          ∧ (∀ path rest, s = ScanStep.hole path rest →
            rest.length < (c :: cs').length) := by
        intro s hstep
        by_cases h1 : c = openBrace
        · cases cs' with
          | nil =>
              simp only [scanStep, if_pos h1] at hstep
              rw [← hstep]
              exact ⟨fun ce rest h => by simp at h,
                fun p rest h => by simp at h⟩
          | cons c2 cs2 =>
              by_cases h2 : c2 = openBrace
              · cases htw : cs2.takeWhile pathChar with
                | nil =>
                    simp only [scanStep, if_pos h1, if_pos h2, htw] at hstep
                    rw [← hstep]
                    refine ⟨fun ce rest h => ?_, fun p rest h => by simp at h⟩
                    simp only [ScanStep.emit.injEq] at h
                    rw [← h.2]
                    simp
                | cons x xs =>
                    by_cases h3 : (cs2.dropWhile pathChar).take 2
                        = [closeBrace, closeBrace]
                    · simp only [scanStep, if_pos h1, if_pos h2, htw,
                        if_pos h3] at hstep
                      rw [← hstep]
                      refine ⟨fun ce rest h => by simp at h,
                        fun p rest h => ?_⟩
                      simp only [ScanStep.hole.injEq] at h
                      rw [← h.2]
                      have := dropWhile_length_le pathChar cs2
                      have h4 := List.length_drop 2 (cs2.dropWhile pathChar)
                      simp only [List.length_cons]
                      omega
                    · simp only [scanStep, if_pos h1, if_pos h2, htw,
                        if_neg h3] at hstep
                      rw [← hstep]
                      refine ⟨fun ce rest h => ?_, fun p rest h => by simp at h⟩
                      simp only [ScanStep.emit.injEq] at h
                      rw [← h.2]
                      simp
              · simp only [scanStep, if_pos h1, if_neg h2] at hstep
                rw [← hstep]
                refine ⟨fun ce rest h => ?_, fun p rest h => by simp at h⟩
                simp only [ScanStep.emit.injEq] at h
                rw [← h.2]
                simp
        · simp only [scanStep, if_neg h1] at hstep
          rw [← hstep]
          refine ⟨fun ce rest h => ?_, fun p rest h => by simp at h⟩
          simp only [ScanStep.emit.injEq] at h
          rw [← h.2]
          simp
      exact ⟨fun ce rest h => (hmain _ rfl).1 ce rest h,
        fun p rest h => (hmain _ rfl).2 p rest h⟩

/-- The scan loop of `PLACEHOLDER_RE.sub(replace, obj)` with the code's
replacement callback, which propagates whatever `get_from_context`
raises.  The loop is given fuel; each step consumes at least one input
character, so with fuel at least the input length (as always supplied by
`codeSub`) the fuel never runs out and the zero-fuel arm is dead code. -/
def codeSubF (ctx : PyVal) : Nat → List Char → Except Unit (List Char)
  | 0, cs => Except.ok cs
  | fuel + 1, cs =>
      match scanStep cs with
      | ScanStep.done pending => Except.ok pending
      | ScanStep.emit c rest =>
          match codeSubF ctx fuel rest with
          | Except.ok tail => Except.ok (c :: tail)
          | Except.error e => Except.error e
      | ScanStep.hole path rest =>
          match codeGetParts ctx ((splitDot path.data).map String.mk) with
          | Except.error e => Except.error e
          | Except.ok v =>
              match codeSubF ctx fuel rest with
              | Except.ok tail => Except.ok (substPiece v ++ tail)
              | Except.error e => Except.error e

/-- `PLACEHOLDER_RE.sub(replace, ·)` on the string's characters. -/
def codeSub (ctx : PyVal) (cs : List Char) : Except Unit (List Char) :=
  codeSubF ctx cs.length cs

/-- The scanner as the claim describes it: the identical scan, but each
placeholder substitutes the claim-side total resolution (the empty
string for an unresolved path), so no error is possible. -/
def specSubF (ctx : PyVal) : Nat → List Char → List Char
  | 0, cs => cs
  | fuel + 1, cs =>
      match scanStep cs with
      | ScanStep.done pending => pending
      | ScanStep.emit c rest => c :: specSubF ctx fuel rest
      | ScanStep.hole path rest =>
          substPiece (specGetParts ctx ((splitDot path.data).map String.mk))
            ++ specSubF ctx fuel rest

def specSub (ctx : PyVal) (cs : List Char) : List Char :=
  specSubF ctx cs.length cs

/-- Wherever the code's scanner returns a substituted string, the
claim-side total scanner returns the same string. -/
theorem codeSubF_refines (ctx : PyVal) :
    ∀ (fuel : Nat) (cs : List Char), cs.length ≤ fuel → ∀ out : List Char,
      codeSubF ctx fuel cs = Except.ok out → specSubF ctx fuel cs = out := by
  intro fuel
  induction fuel with
  | zero =>
      intro cs hlen out hc
      simp only [codeSubF, Except.ok.injEq] at hc
      simp [specSubF, hc]
  | succ m ih =>
      intro cs hlen out hc
      cases hs : scanStep cs with
      | done pending =>
          simp only [codeSubF, hs, Except.ok.injEq] at hc
          simp only [specSubF, hs]
          rw [hc]
      | emit c rest =>
          have hlt := (scanStep_rest_lt cs).1 c rest hs
          simp only [codeSubF, hs] at hc
          simp only [specSubF, hs]
          cases hcs : codeSubF ctx m rest with
          | error e => rw [hcs] at hc; exact absurd hc (by simp)
          | ok tail =>
              rw [hcs] at hc
              simp only [Except.ok.injEq] at hc
              rw [ih rest (by omega) tail hcs, hc]
      | hole path rest =>
          have hlt := (scanStep_rest_lt cs).2 path rest hs
          simp only [codeSubF, hs] at hc
          simp only [specSubF, hs]
          cases hg : codeGetParts ctx ((splitDot path.data).map String.mk) with
          | error e => rw [hg] at hc; exact absurd hc (by simp)
          | ok v =>
              rw [hg] at hc
              cases hcs : codeSubF ctx m rest with
              | error e => rw [hcs] at hc; exact absurd hc (by simp)
              | ok tail =>
                  rw [hcs] at hc
                  simp only [Except.ok.injEq] at hc
                  rw [codeGetParts_refines _ _ _ hg]
                  rw [ih rest (by omega) tail hcs, hc]

theorem codeSub_refines (ctx : PyVal) (cs : List Char) (out : List Char)
    (h : codeSub ctx cs = Except.ok out) : specSub ctx cs = out :=
  codeSubF_refines ctx cs.length cs le_rfl out h

/-! ## `resolve_placeholders` (src/app/core/farm/task.py, 47–60)

The substitution recurses homomorphically: strings are scanned for
placeholders, dict values and list elements are resolved recursively
(an exception raised for any element propagates, as in the Python
comprehensions), all other values pass through. -/

mutual

/-- `FarmTask.resolve_placeholders`. -/
def resolve_placeholders (ctx : PyVal) : PyVal → Except Unit PyVal
  | PyVal.str s =>
      match codeSub ctx s.data with
      | Except.ok cs => Except.ok (PyVal.str (String.mk cs))
      | Except.error e => Except.error e
  | PyVal.dict entries =>
      match resolveEntries ctx entries with
      | Except.ok es => Except.ok (PyVal.dict es)
      | Except.error e => Except.error e
  | PyVal.list items =>
      match resolveItems ctx items with
      | Except.ok vs => Except.ok (PyVal.list vs)
      | Except.error e => Except.error e
  | PyVal.none => Except.ok PyVal.none
  | PyVal.bool b => Except.ok (PyVal.bool b)
  | PyVal.int i => Except.ok (PyVal.int i)

def resolveEntries (ctx : PyVal) :
    List (String × PyVal) → Except Unit (List (String × PyVal))
  | [] => Except.ok []
  | (k, v) :: rest =>
      match resolve_placeholders ctx v with
      | Except.ok v2 =>
          match resolveEntries ctx rest with
          | Except.ok rest2 => Except.ok ((k, v2) :: rest2)
          | Except.error e => Except.error e
      | Except.error e => Except.error e

def resolveItems (ctx : PyVal) : List PyVal → Except Unit (List PyVal)
  | [] => Except.ok []
  | v :: rest =>
      match resolve_placeholders ctx v with
      | Except.ok v2 =>
          match resolveItems ctx rest with
          | Except.ok rest2 => Except.ok (v2 :: rest2)
          | Except.error e => Except.error e
      | Except.error e => Except.error e

end

mutual

/-- Substitution as the claim describes it: the same homomorphic
recursion with every placeholder substituting the total resolution
(empty string for an unresolved path), so it never fails. -/
def specResolve (ctx : PyVal) : PyVal → PyVal
  | PyVal.str s => PyVal.str (String.mk (specSub ctx s.data))
  | PyVal.dict entries => PyVal.dict (specResolveEntries ctx entries)
  | PyVal.list items => PyVal.list (specResolveItems ctx items)
  | PyVal.none => PyVal.none
  | PyVal.bool b => PyVal.bool b
  | PyVal.int i => PyVal.int i

def specResolveEntries (ctx : PyVal) :
    List (String × PyVal) → List (String × PyVal)
  | [] => []
  | (k, v) :: rest =>
      (k, specResolve ctx v) :: specResolveEntries ctx rest

def specResolveItems (ctx : PyVal) : List PyVal → List PyVal
  | [] => []
  | v :: rest => specResolve ctx v :: specResolveItems ctx rest

end

theorem resolve_refines_aux (ctx : PyVal) (n : Nat) :
    (∀ v : PyVal, sizeOf v ≤ n → ∀ r,
      resolve_placeholders ctx v = Except.ok r → specResolve ctx v = r)
    ∧ (∀ es : List (String × PyVal), sizeOf es ≤ n → ∀ rs,
      resolveEntries ctx es = Except.ok rs → specResolveEntries ctx es = rs)
    ∧ (∀ l : List PyVal, sizeOf l ≤ n → ∀ vs,
      resolveItems ctx l = Except.ok vs → specResolveItems ctx l = vs) := by
  induction n with
  | zero =>
      refine ⟨fun v hv => absurd hv ?_, fun es hes => absurd hes ?_,
        fun l hl => absurd hl ?_⟩
      · cases v <;> simp
      · cases es <;> simp
      · cases l <;> simp
  | succ m ih =>
      refine ⟨?_, ?_, ?_⟩
      · intro v hv r hr
        cases v with
        | str s =>
            rw [resolve_placeholders] at hr
            cases hcs : codeSub ctx s.data with
            | error e => rw [hcs] at hr; exact absurd hr (by simp)
            | ok cs =>
                rw [hcs] at hr
                simp only [Except.ok.injEq] at hr
                rw [specResolve, codeSub_refines ctx s.data cs hcs, hr]
        | dict entries =>
            rw [resolve_placeholders] at hr
            cases hre : resolveEntries ctx entries with
            | error e => rw [hre] at hr; exact absurd hr (by simp)
            | ok es =>
                rw [hre] at hr
                simp only [Except.ok.injEq] at hr
                have hsz : sizeOf (PyVal.dict entries) = 1 + sizeOf entries := by
                  simp
                rw [specResolve, ih.2.1 entries (by omega) es hre, hr]
        | list items =>
            rw [resolve_placeholders] at hr
            cases hri : resolveItems ctx items with
            | error e => rw [hri] at hr; exact absurd hr (by simp)
            | ok vs =>
                rw [hri] at hr
                simp only [Except.ok.injEq] at hr
                have hsz : sizeOf (PyVal.list items) = 1 + sizeOf items := by
                  simp
                rw [specResolve, ih.2.2 items (by omega) vs hri, hr]
        | none =>
            rw [resolve_placeholders] at hr
            simp only [Except.ok.injEq] at hr
            rw [specResolve, hr]
        | bool b =>
            rw [resolve_placeholders] at hr
            simp only [Except.ok.injEq] at hr
            rw [specResolve, hr]
        | int i =>
            rw [resolve_placeholders] at hr
            simp only [Except.ok.injEq] at hr
            rw [specResolve, hr]
      · intro es hes rs hr
        cases es with
        | nil =>
            rw [resolveEntries] at hr
            simp only [Except.ok.injEq] at hr
            rw [specResolveEntries, hr]
        | cons kv rest =>
            obtain ⟨k, v⟩ := kv
            rw [resolveEntries] at hr
            cases hv : resolve_placeholders ctx v with
            | error e => rw [hv] at hr; exact absurd hr (by simp)
            | ok v2 =>
                rw [hv] at hr
                cases hrest : resolveEntries ctx rest with
                | error e => rw [hrest] at hr; exact absurd hr (by simp)
                | ok rest2 =>
                    rw [hrest] at hr
                    simp only [Except.ok.injEq] at hr
                    have hsz : sizeOf ((k, v) :: rest)
                        = 1 + (1 + sizeOf k + sizeOf v) + sizeOf rest := by
                      simp
                    rw [specResolveEntries,
                      ih.1 v (by omega) v2 hv,
                      ih.2.1 rest (by omega) rest2 hrest, hr]
      · intro l hl vs hr
        cases l with
        | nil =>
            rw [resolveItems] at hr
            simp only [Except.ok.injEq] at hr
            rw [specResolveItems, hr]
        | cons v rest =>
            rw [resolveItems] at hr
            cases hv : resolve_placeholders ctx v with
            | error e => rw [hv] at hr; exact absurd hr (by simp)
            | ok v2 =>
                rw [hv] at hr
                cases hrest : resolveItems ctx rest with
                | error e => rw [hrest] at hr; exact absurd hr (by simp)
                | ok rest2 =>
                    rw [hrest] at hr
                    simp only [Except.ok.injEq] at hr
                    have hsz : sizeOf (v :: rest)
                        = 1 + sizeOf v + sizeOf rest := by simp
                    rw [specResolveItems,
                      ih.1 v (by omega) v2 hv,
                      ih.2.2 rest (by omega) rest2 hrest, hr]

/-- The context of the claim's example:
`{vars: {url: "http://x"}, steps: {}}`. -/
def ctx0 : PyVal :=
  PyVal.dict
    [("vars", PyVal.dict [("url", PyVal.str "http://x")]),
     ("steps", PyVal.dict [])]

/-- C4 counterexample: on the template `"{{vars.url[99]}}"` (an
unresolvable path: index 99 is out of range for the 8-character string
under `vars.url`), substitution raises (`IndexError` from `cur[idx]`)
instead of substituting the empty string, while the claim-side
substitution yields `""`. -/
theorem resolve_out_of_range_counterexample :
    resolve_placeholders ctx0
        (PyVal.str "\x7b\x7bvars.url[99]\x7d\x7d") = Except.error ()
    ∧ specResolve ctx0 (PyVal.str "\x7b\x7bvars.url[99]\x7d\x7d")
        = PyVal.str "" := by
  exact ⟨rfl, rfl⟩

/-- C4 (amended): placeholder substitution recurses homomorphically over
nested maps and sequences and replaces each `{{path}}` occurrence with
the stringified resolution of the dot-separated (optionally bracket-
indexed) path, substituting the empty string for a path that resolves to
no value — except that a path whose resolution raises (an out-of-range
or ill-formed bracket index, or a bracket segment against a non-dict)
makes the whole substitution raise instead: whenever the code returns a
result it is exactly the claim-described total substitution, and the
claim's example resolves as stated. -/
theorem resolve_placeholders_spec :
    (∀ ctx obj r : PyVal,
      resolve_placeholders ctx obj = Except.ok r → specResolve ctx obj = r)
    ∧ resolve_placeholders ctx0
        (PyVal.str "go to \x7b\x7bvars.url\x7d\x7d")
      = Except.ok (PyVal.str "go to http://x") := by
  constructor
  · intro ctx obj r h
    exact (resolve_refines_aux ctx (sizeOf obj)).1 obj le_rfl r h
  · rfl

/-- Witness for C4 at the claim's example context and template. -/
theorem resolve_placeholders_spec_witness :
    resolve_placeholders ctx0 (PyVal.str "go to \x7b\x7bvars.url\x7d\x7d")
      = Except.ok (PyVal.str "go to http://x")
    ∧ specResolve ctx0 (PyVal.str "go to \x7b\x7bvars.url\x7d\x7d")
      = PyVal.str "go to http://x" :=
  ⟨resolve_placeholders_spec.2,
    resolve_placeholders_spec.1 ctx0 _ _ resolve_placeholders_spec.2⟩

end Datahive
